import Mathlib

/-!
Verification of the phrase-highlighting engine in
`src/utils/HighlightManager.ts` (class `HighlightManager`).

The engine is embedded shallowly over `List Char`:
JavaScript strings become `List Char`, the regex-replace pipeline of
`normalizeForMatching` becomes a composition of structurally recursive
list transformers, and numeric coordinates (used only with `+`, `-`,
`min`, `max`, comparisons) are modelled as `Int`.  The floating-point
ratio comparisons (`matchRatio >= 0.6`, `>= Math.max(1, n * 0.5)`) are
modelled as exact rational comparisons (`10 * m ≥ 6 * n`,
`2 * c ≥ max 2 n`), which agree with the IEEE-754 computation for all
realistically sized term lists; the `Math.floor(i * ratio)` offset
translation is modelled as exact natural floor division.
Character classes (`\s`, `\w`, `toLowerCase`) are modelled over ASCII.
-/

namespace HighlightManager

/-- JS `\s` restricted to ASCII: space, tab, LF, VT, FF, CR. -/
def wsC (c : Char) : Bool :=
  c.toNat = 32 || c.toNat = 9 || c.toNat = 10 || c.toNat = 11 || c.toNat = 12 || c.toNat = 13

/-- JS `\d`. -/
def isDigitC (c : Char) : Bool := 48 ≤ c.toNat && c.toNat ≤ 57

/-- JS `\w`: `[A-Za-z0-9_]`. -/
def isWordC (c : Char) : Bool :=
  (48 ≤ c.toNat && c.toNat ≤ 57) || (65 ≤ c.toNat && c.toNat ≤ 90) ||
  (97 ≤ c.toNat && c.toNat ≤ 122) || c.toNat = 95

/-- JS `String.prototype.toLowerCase`, per character, on ASCII. -/
def jsToLower (c : Char) : Char :=
  if 65 ≤ c.toNat ∧ c.toNat ≤ 90 then Char.ofNat (c.toNat + 32) else c

/-- Stage `.replace(/\s+/g, ' ')`: collapse every whitespace run to one space. -/
def collapseWs : List Char → List Char
  | [] => []
  | c :: rest =>
    if wsC c && (match rest with | d :: _ => wsC d | [] => false) then
      collapseWs rest
    else
      (if wsC c then ' ' else c) :: collapseWs rest

/-- Stage `.replace(/usd\s*/gi, 'usd ')`.  The flag records whether the
scanner is inside the `\s*` part of a match (those characters are consumed
by the match and replaced by the single canonical space). -/
def usdAux : Bool → List Char → List Char
  | _, 'u' :: 's' :: 'd' :: rest => 'u' :: 's' :: 'd' :: ' ' :: usdAux true rest
  | skip, c :: rest =>
    if skip ∧ wsC c then usdAux true rest else c :: usdAux false rest
  | _, [] => []

/-- Stage `.replace(/\$/g, 'usd ')`. -/
def dollarStep (l : List Char) : List Char :=
  l.flatMap fun c => if c = '$' then ['u', 's', 'd', ' '] else [c]

/-- Stage `.replace(/,(\d)/g, '$1')`: a comma immediately followed by a digit
is deleted; the regex also consumes the digit, so scanning resumes after it. -/
def commaStep : List Char → List Char
  | ',' :: d :: rest =>
    if isDigitC d then d :: commaStep rest else ',' :: commaStep (d :: rest)
  | c :: rest => c :: commaStep rest
  | [] => []

/-- Character kept by `.replace(/[^\w\s.,;:!?$%()-]/g, '')`. -/
def keepC (c : Char) : Bool :=
  isWordC c || wsC c ||
  (c = '.' || c = ',' || c = ';' || c = ':' || c = '!' || c = '?' ||
   c = '$' || c = '%' || c = '(' || c = ')' || c = '-')

/-- Remove a trailing whitespace run (the right half of `.trim()`). -/
def dropTrailWs : List Char → List Char
  | [] => []
  | c :: rest =>
    if dropTrailWs rest = [] then (if wsC c then [] else [c])
    else c :: dropTrailWs rest

/-- JS `.trim()` over ASCII whitespace. -/
def trimWs (l : List Char) : List Char := dropTrailWs (l.dropWhile wsC)

/-- `HighlightManager.normalizeForMatching`, stage for stage. -/
def normalize (l : List Char) : List Char :=
  trimWs ((commaStep (dollarStep (usdAux false (collapseWs (l.map jsToLower))))).filter keepC)

/-- `normalizeForMatching` on `String`. -/
def normStr (s : String) : String := String.mk (normalize s.data)

/-- JS `text.match(/\d+\.?\d*/g)`: all leftmost maximal digit runs, each
optionally followed by one dot and a further digit run.  The accumulator
holds the (reversed) token under construction and whether its dot was
already consumed. -/
def numsAux : Option (List Char × Bool) → List Char → List (List Char)
  | none, [] => []
  | some (tok, _), [] => [tok.reverse]
  | none, c :: rest =>
    if isDigitC c then numsAux (some ([c], false)) rest else numsAux none rest
  | some (tok, sawDot), c :: rest =>
    if isDigitC c then numsAux (some (c :: tok, sawDot)) rest
    else if c = '.' && !sawDot then numsAux (some ('.' :: tok, true)) rest
    else tok.reverse :: numsAux none rest

/-- The number tokens of `extractKeyTerms`. -/
def matchNumbers (l : List Char) : List (List Char) := numsAux none l

/-- JS `text.split(' ')`. -/
def splitSp : List Char → List (List Char)
  | [] => [[]]
  | c :: rest =>
    match splitSp rest with
    | [] => [[c]]
    | h :: t => if c = ' ' then [] :: h :: t else (c :: h) :: t

/-- JS `haystack.indexOf(needle)` as an `Option Nat`. -/
def firstIdx (needle : List Char) : List Char → Option Nat
  | [] => if needle = [] then some 0 else none
  | c :: rest =>
    if needle.isPrefixOf (c :: rest) then some 0
    else (firstIdx needle rest).map (· + 1)

/-- JS `haystack.includes(needle)`. -/
def containsSub (haystack needle : List Char) : Bool :=
  (firstIdx needle haystack).isSome

/-- Stoplist of `extractKeyTerms` in `fuzzyMatch`. -/
def stopWords : List (List Char) :=
  ["this".data, "that".data, "with".data, "from".data,
   "have".data, "been".data, "were".data, "said".data]

/-- `extractKeyTerms` from `fuzzyMatch`: numbers, then words of length ≥ 4
outside the stoplist. -/
def extractKeyTerms (text : List Char) : List (List Char) :=
  matchNumbers text ++
    (splitSp text).filter fun w => decide (4 ≤ w.length) && !(stopWords.contains w)

/-- Key terms of the normalized needle. -/
def needleTermsOf (needle : List Char) : List (List Char) :=
  extractKeyTerms (normalize needle)

/-- Needle key terms that have a haystack key term related by bidirectional
substring containment (`hTerm.includes(term) || term.includes(hTerm)`). -/
def matchedTermsOf (haystack needle : List Char) : List (List Char) :=
  (needleTermsOf needle).filter fun term =>
    (extractKeyTerms (normalize haystack)).any fun hTerm =>
      containsSub hTerm term || containsSub term hTerm

/-- `HighlightManager.fuzzyMatch`.  `matchRatio >= 0.6` is modelled exactly
as `10 * matched ≥ 6 * total`. -/
def fuzzyMatch (haystack needle : List Char) : Bool :=
  if containsSub (normalize haystack) (normalize needle) then true
  else if (needleTermsOf needle).length = 0 then false
  else
    decide (10 * (matchedTermsOf haystack needle).length ≥
              6 * (needleTermsOf needle).length) ||
      decide (2 ≤ (matchedTermsOf haystack needle).length)

/-- `HighlightRect` from `types.ts`; coordinates modelled as `Int`. -/
structure Rect where
  x : Int
  y : Int
  width : Int
  height : Int
  deriving DecidableEq, Repr

/-- `TextItem` from `types.ts`: `transform[4]`/`transform[5]` are kept as the
two translation components the code reads; a missing/zero `height` is the
falsy case of `item.height || 12`. -/
structure TextItem where
  str : List Char
  tx : Int
  ty : Int
  width : Int
  height : Int
  deriving DecidableEq, Repr

/-- `PageTextContent` from `types.ts` (the `pageIndex` field is never read
by `HighlightManager`, so it is omitted). -/
structure PageTextContent where
  text : List Char
  items : List TextItem
  deriving DecidableEq, Repr

/-- `Highlight` from `types.ts`. -/
structure Highlight where
  id : List Char
  phrase : List Char
  pageIndex : Nat
  rects : List Rect
  color : List Char
  deriving DecidableEq, Repr

/-- The fragment-indexer loop of `findTextRects`: builds `fullText` and
`charToItemMap`, inserting a synthetic space (attributed to the earlier
item) between consecutive items when neither side already provides one. -/
def buildFullAux (i : Nat) : List TextItem → List Char × List Nat
  | [] => ([], [])
  | [item] => (item.str, item.str.map fun _ => i)
  | item :: next :: rest =>
    let (t, m) := buildFullAux (i + 1) (next :: rest)
    if !(item.str.getLast? = some ' ') && !(next.str.head? = some ' ') then
      (item.str ++ ' ' :: t, (item.str.map fun _ => i) ++ i :: m)
    else
      (item.str ++ t, (item.str.map fun _ => i) ++ m)

/-- The partial pass of `findTextRects`: walk the key terms in order; for the
first found term whose 50-before/100-after context window holds at least
`Math.max(1, allKeyTerms.length * 0.5)` of all key terms, the span starts at
the term and runs `Math.min(100, remaining)` normalized characters.  The
threshold is modelled exactly as `2 * hits ≥ max 2 total`. -/
def partialScan (all : List (List Char)) (nft : List Char) :
    List (List Char) → Option (Nat × Nat)
  | [] => none
  | term :: rest =>
    match firstIdx term nft with
    | none => partialScan all nft rest
    | some termIndex =>
      let contextStart := termIndex - 50
      let contextEnd := min nft.length (termIndex + 100)
      let context := (nft.take contextEnd).drop contextStart
      let hits := (all.filter fun t => containsSub context t).length
      if 2 * hits ≥ max 2 all.length then
        some (termIndex, min 100 (nft.length - termIndex))
      else partialScan all nft rest

/-- Stoplist of the partial pass (smaller than the `fuzzyMatch` one). -/
def stopWordsPartial : List (List Char) :=
  ["this".data, "that".data, "with".data, "from".data]

/-- Normalized start offset and length of the span `findTextRects` resolves
inside the normalized concatenated buffer: the exact pass, then the partial
key-term pass. -/
def resolveSpan (normalizedPhrase nft : List Char) : Option (Nat × Nat) :=
  match firstIdx normalizedPhrase nft with
  | some startIndex => some (startIndex, normalizedPhrase.length)
  | none =>
    let allKeyTerms :=
      matchNumbers normalizedPhrase ++
        (splitSp normalizedPhrase).filter fun w =>
          decide (4 ≤ w.length) && !(stopWordsPartial.contains w)
    partialScan allKeyTerms nft allKeyTerms

/-- Keep-first deduplication (insertion order of a JS `Set`). -/
def dedupAux (seen : List Nat) : List Nat → List Nat
  | [] => []
  | x :: rest =>
    if seen.contains x then dedupAux seen rest else x :: dedupAux (x :: seen) rest

/-- Stable insertion into a list sorted by `le` (insert after ties). -/
def insertLe {α : Type} (le : α → α → Bool) (a : α) : List α → List α
  | [] => [a]
  | h :: t => if le h a then h :: insertLe le a t else a :: h :: t

/-- Stable sort by `le` (JS `Array.prototype.sort` with a total comparator). -/
def sortLe {α : Type} (le : α → α → Bool) (l : List α) : List α :=
  l.foldl (fun acc a => insertLe le a acc) []

/-- The set of fragment indices touched by the resolved span, ascending
(`Array.from(matchingItemIndices).sort((a, b) => a - b)`).  The
normalized-to-original offset translation `Math.floor(i * ratio)` with
`ratio = fullText.length / normalizedFullText.length` is modelled as exact
floor division. -/
def touchedIdx (phrase : List Char) (pc : PageTextContent) : List Nat :=
  let built := buildFullAux 0 pc.items
  let fullText := built.1
  let charToItemMap := built.2
  let nft := normalize fullText
  match resolveSpan (normalize phrase) nft with
  | none => []
  | some (startIndex, searchLength) =>
    let originalStart := startIndex * fullText.length / nft.length
    let originalEnd := (startIndex + searchLength) * fullText.length / nft.length
    let slice := (charToItemMap.take (min originalEnd charToItemMap.length)).drop originalStart
    sortLe (fun a b => decide (a ≤ b)) (dedupAux [] slice)

/-- A `TextItem` mapped to its rectangle: `transform[4]`, `transform[5]`,
`item.width`, `item.height || 12`. -/
def itemRect (item : TextItem) : Rect :=
  { x := item.tx, y := item.ty, width := item.width,
    height := if item.height = 0 then 12 else item.height }

/-- Sort order of `mergeRects`: comparator `a.y - b.y || a.x - b.x`. -/
def rectLe (a b : Rect) : Bool :=
  decide (a.y < b.y) || (decide (a.y = b.y) && decide (a.x ≤ b.x))

/-- The fold of `mergeRects`: merge `current` with the next rectangle when
they are on the same line (`|Δy| < 5`) and adjacent (`next.x ≤ current.x +
current.width + 10`); otherwise flush `current`. -/
def mergeLoop (current : Rect) : List Rect → List Rect
  | [] => [current]
  | next :: rest =>
    if decide ((current.y - next.y).natAbs < 5) &&
        decide (next.x ≤ current.x + current.width + 10) then
      mergeLoop
        { x := min current.x next.x,
          y := min current.y next.y,
          width := max (current.x + current.width) (next.x + next.width) -
                     min current.x next.x,
          height := max current.height next.height } rest
    else current :: mergeLoop next rest

/-- `HighlightManager.mergeRects`. -/
def mergeRects (rects : List Rect) : List Rect :=
  if rects.length ≤ 1 then rects
  else
    match sortLe rectLe rects with
    | [] => []
    | c :: rest => mergeLoop c rest

/-- `HighlightManager.findTextRects`. -/
def findTextRects (phrase : List Char) (pc : PageTextContent) : List Rect :=
  mergeRects ((touchedIdx phrase pc).map fun j =>
    itemRect (pc.items.getD j ⟨[], 0, 0, 0, 0⟩))

/-- Sparse-array access `pageContents[pageIndex]` (out-of-range or missing
entries are `undefined`). -/
def pageAt (pages : List (Option PageTextContent)) (i : Nat) : Option PageTextContent :=
  (pages.get? i).getD none

/-- Page-visit order of `findPhrase`: hinted page first, then remaining
indices ascending. -/
def searchOrder (pages : List (Option PageTextContent)) : Option Nat → List Nat
  | some h => h :: (List.range pages.length).filter fun i => i ≠ h
  | none => List.range pages.length

/-- The highlight colour `'#fef08a'`. -/
def yellow : List Char := "#fef08a".data

/-- The page loop of `findPhrase`.  The second component records whether the
`console.warn` fallback branch fired (exact rectangles not found), which is
the code's observable distinction between a precise and an approximate
result. -/
def findPhraseGo (phrase id : List Char) (pages : List (Option PageTextContent)) :
    List Nat → Option Highlight × Bool
  | [] => (none, false)
  | i :: rest =>
    match pageAt pages i with
    | none => findPhraseGo phrase id pages rest
    | some pc =>
      if fuzzyMatch pc.text phrase then
        let rects := findTextRects phrase pc
        if 0 < rects.length then
          (some ⟨id, phrase, i, rects, yellow⟩, false)
        else
          (some ⟨id, phrase, i, [⟨50, 100, 500, 30⟩], yellow⟩, true)
      else findPhraseGo phrase id pages rest

/-- `HighlightManager.findPhrase` together with its fallback diagnostic. -/
def findPhraseWithLog (phrase id : List Char) (pages : List (Option PageTextContent))
    (pageHint : Option Nat) : Option Highlight × Bool :=
  findPhraseGo phrase id pages (searchOrder pages pageHint)

/-- `HighlightManager.findPhrase` (returned value only). -/
def findPhrase (phrase id : List Char) (pages : List (Option PageTextContent))
    (pageHint : Option Nat) : Option Highlight :=
  (findPhraseWithLog phrase id pages pageHint).1

/-- Whether the page at index `i` exists and its advisory full text
fuzzy-matches the phrase (the per-page test of the `findPhrase` loop). -/
def pageQualifies (phrase : List Char) (pages : List (Option PageTextContent))
    (i : Nat) : Bool :=
  match pageAt pages i with
  | none => false
  | some pc => fuzzyMatch pc.text phrase

/-- Specification-side characterization of the thousands-separator stage:
a comma is removed exactly when the next character is a digit; every other
character is kept.  To be compared with `commaStep`. -/
def dropThousands : List Char → List Char
  | [] => []
  | c :: rest =>
    if c = ',' && (match rest with | d :: _ => isDigitC d | [] => false) then
      dropThousands rest
    else c :: dropThousands rest

/-- Character allowed in the restricted alphabet on which normalization is
idempotent: ASCII letters, digits and the space. -/
def plainC (c : Char) : Bool :=
  (65 ≤ c.toNat && c.toNat ≤ 90) || (97 ≤ c.toNat && c.toNat ≤ 122) ||
  (48 ≤ c.toNat && c.toNat ≤ 57) || c.toNat = 32

/-- Lowercase letters, digits and the space: the alphabet of normalized
output of a `plainC` string. -/
def lowC (c : Char) : Bool :=
  (97 ≤ c.toNat && c.toNat ≤ 122) || (48 ≤ c.toNat && c.toNat ≤ 57) || c.toNat = 32

/-- No two adjacent whitespace characters. -/
def noWs2 : List Char → Bool
  | a :: b :: rest => !(wsC a && wsC b) && noWs2 (b :: rest)
  | _ => true

/-- Every occurrence of `usd` is followed by a space or ends the string:
exactly the strings on which the `/usd\s*/` stage is the identity up to a
possible trailing space. -/
def usdOk : List Char → Bool
  | 'u' :: 's' :: 'd' :: rest =>
    (match rest with | [] => true | d :: _ => d = ' ') && usdOk rest
  | _ :: rest => usdOk rest
  | [] => true

/-- Page fixture for the span-resolver round trip: ordered fragments
`Revenue`, `12.8`, `billion` with no embedded separator characters. -/
def pcRevenue : PageTextContent :=
  ⟨"Revenue 12.8 billion".data,
   [⟨"Revenue".data, 50, 700, 80, 12⟩, ⟨"12.8".data, 135, 700, 40, 12⟩,
    ⟨"billion".data, 180, 700, 70, 12⟩]⟩

/-- A page whose full text matches phrase `revenue 12.8` but whose fragment
list is empty, so no span can be resolved within it. -/
def pageBare : Option PageTextContent := some ⟨"revenue 12.8 billion".data, []⟩

/-! ## Helper lemmas -/

theorem commaStep_eq_dropThousands : ∀ l, commaStep l = dropThousands l := by
  intro l
  induction l using commaStep.induct with
  | case1 d rest hdig ih =>
    have hd : (d = ',') = False := by
      simp only [eq_iff_iff, iff_false]
      intro h
      subst h
      simp [isDigitC] at hdig
    rw [commaStep.eq_1]
    simp [hdig, dropThousands, hd, ih]
  | case2 d rest hdig ih =>
    rw [commaStep.eq_1]
    simp [hdig, dropThousands, ih]
  | case3 c rest h ih =>
    rw [commaStep.eq_2 c rest h]
    rcases rest with _ | ⟨d, t⟩
    · simp [dropThousands, ih]
    · have hc : (c = ',') = False := by
        simp only [eq_iff_iff, iff_false]
        intro hh
        exact h d t hh rfl
      simp [dropThousands, hc, ih]
  | case4 => rfl

/-! ## Claim theorems -/

/-- Claim C2, counterexample: the thousands-separator stage `,(\d)` only
requires a digit after the comma, so `a,1` loses its comma even though the
comma does not sit between two digits; the claim says it should survive. -/
theorem claim2_comma_between_digits_cex :
    normStr "a,1" = "a1" ∧ ',' ∉ (normStr "a,1").data := by
  constructor
  · decide
  · decide

/-- Claim C2 as amended: the thousands-separator stage removes a comma
exactly when the comma is immediately followed by a digit (what precedes it
is irrelevant), concatenating the surrounding characters (`12,800` becomes
`12800`); a comma not followed by a digit survives the stage and, being in
the retained punctuation set, survives into the output. -/
theorem claim2_comma_followed_by_digit :
    (∀ l, commaStep l = dropThousands l) ∧
    commaStep "12,800".data = "12800".data ∧
    normStr "ab , cd" = "ab , cd" :=
  ⟨commaStep_eq_dropThousands, by decide, by decide⟩

/-- Claim C3: `normalize "$12,800"` and `normalize "USD 12800"` return the
same string (`usd 12800`). -/
theorem claim3_currency_canonicalization :
    normStr "$12,800" = normStr "USD 12800" ∧ normStr "$12,800" = "usd 12800" := by
  constructor
  · decide
  · decide

/-- Claim C4: if the normalized haystack contains the normalized needle as a
substring, `fuzzyMatch` returns true (the early exact-containment exit). -/
theorem claim4_substring_implies_match :
    ∀ haystack needle : List Char,
      containsSub (normalize haystack) (normalize needle) = true →
      fuzzyMatch haystack needle = true := by
  intro haystack needle hc
  unfold fuzzyMatch
  simp [hc]

/-- Witness for C4 at a concrete pair. -/
theorem claim4_substring_implies_match_witness :
    containsSub (normalize "Revenue of USD 12,800".data)
        (normalize "usd 12800".data) = true ∧
      fuzzyMatch "Revenue of USD 12,800".data "usd 12800".data = true :=
  ⟨by decide, claim4_substring_implies_match _ _ (by decide)⟩

theorem buildFullAux_congr :
    ∀ (l1 : List TextItem) (i : Nat) (l2 : List TextItem),
      l1.map TextItem.str = l2.map TextItem.str →
      buildFullAux i l1 = buildFullAux i l2 := by
  intro l1
  induction l1 with
  | nil =>
    intro i l2 h
    cases l2 with
    | nil => rfl
    | cons _ _ => simp at h
  | cons it1 rest1 ih =>
    intro i l2 h
    cases l2 with
    | nil => simp at h
    | cons it2 rest2 =>
      simp only [List.map_cons, List.cons.injEq] at h
      obtain ⟨h1, hrest⟩ := h
      cases rest1 with
      | nil =>
        cases rest2 with
        | nil => simp [buildFullAux, h1]
        | cons _ _ => simp at hrest
      | cons n1 r1 =>
        cases rest2 with
        | nil => simp at hrest
        | cons n2 r2 =>
          have hn : n1.str = n2.str := by
            simpa using congrArg List.head? hrest
          have hrec := ih (i + 1) (n2 :: r2) hrest
          simp only [buildFullAux, h1, hn, hrec]

theorem touchedIdx_congr (phrase : List Char) (pc1 pc2 : PageTextContent)
    (h : pc1.items.map TextItem.str = pc2.items.map TextItem.str) :
    touchedIdx phrase pc1 = touchedIdx phrase pc2 := by
  unfold touchedIdx
  rw [buildFullAux_congr pc1.items 0 pc2.items h]

/-- Claim C7: resolving the phrase `Revenue 12.8` against a page whose
ordered fragments are `Revenue`, `12.8`, `billion` (no embedded separators)
touches at least fragments 0 and 1, for every choice of fragment geometry. -/
theorem claim7_span_resolver_roundtrip :
    ∀ a b c d e f g h i j k l : Int,
      0 ∈ touchedIdx "Revenue 12.8".data
          ⟨"Revenue 12.8 billion".data,
           [⟨"Revenue".data, a, b, c, d⟩, ⟨"12.8".data, e, f, g, h⟩,
            ⟨"billion".data, i, j, k, l⟩]⟩ ∧
      1 ∈ touchedIdx "Revenue 12.8".data
          ⟨"Revenue 12.8 billion".data,
           [⟨"Revenue".data, a, b, c, d⟩, ⟨"12.8".data, e, f, g, h⟩,
            ⟨"billion".data, i, j, k, l⟩]⟩ := by
  intro a b c d e f g h i j k l
  have ht := touchedIdx_congr "Revenue 12.8".data
    ⟨"Revenue 12.8 billion".data,
     [⟨"Revenue".data, a, b, c, d⟩, ⟨"12.8".data, e, f, g, h⟩,
      ⟨"billion".data, i, j, k, l⟩]⟩ pcRevenue rfl
  rw [ht]
  have hv : touchedIdx "Revenue 12.8".data pcRevenue = [0, 1] := by decide
  rw [hv]
  exact ⟨by simp, by simp⟩

/-- Claim C8: the two-rectangle merge scenarios.  Rectangles at `y = 100`
and `y = 101` with x-extents `0..50` and `55..100` merge into the bounding
rectangle spanning `x = 0..100` (height the max of the two); rectangles at
`y = 100` and `y = 200` never merge, for every choice of x, width and
height. -/
theorem claim8_merge_rects :
    (∀ h1 h2 : Int,
      mergeRects [⟨0, 100, 50, h1⟩, ⟨55, 101, 45, h2⟩] =
        [⟨0, 100, 100, max h1 h2⟩]) ∧
    (∀ x1 w1 h1 x2 w2 h2 : Int,
      mergeRects [⟨x1, 100, w1, h1⟩, ⟨x2, 200, w2, h2⟩] =
        [⟨x1, 100, w1, h1⟩, ⟨x2, 200, w2, h2⟩]) :=
  ⟨fun _ _ => rfl, fun _ _ _ _ _ _ => rfl⟩

theorem findPhraseGo_pageIndex (phrase id : List Char)
    (pages : List (Option PageTextContent)) :
    ∀ order : List Nat,
      ((findPhraseGo phrase id pages order).1).map Highlight.pageIndex =
        order.find? (pageQualifies phrase pages) := by
  intro order
  induction order with
  | nil => rfl
  | cons i rest ih =>
    cases hp : pageAt pages i with
    | none =>
      have hq : ¬(pageQualifies phrase pages i = true) := by
        simp [pageQualifies, hp]
      rw [List.find?_cons_of_neg _ hq]
      simpa [findPhraseGo, hp] using ih
    | some pc =>
      by_cases hf : fuzzyMatch pc.text phrase = true
      · have hq : pageQualifies phrase pages i = true := by
          simp [pageQualifies, hp, hf]
        rw [List.find?_cons_of_pos _ hq]
        by_cases hr : 0 < (findTextRects phrase pc).length
        · simp [findPhraseGo, hp, hf, hr]
        · simp [findPhraseGo, hp, hf, hr]
      · have hq : ¬(pageQualifies phrase pages i = true) := by
          simp [pageQualifies, hp, hf]
        rw [List.find?_cons_of_neg _ hq]
        simpa [findPhraseGo, hp, hf] using ih

theorem findPhraseGo_sound (phrase id : List Char)
    (pages : List (Option PageTextContent)) :
    ∀ (order : List Nat) (h : Highlight),
      (findPhraseGo phrase id pages order).1 = some h →
      h.rects ≠ [] ∧ ∃ pc, pageAt pages h.pageIndex = some pc := by
  intro order
  induction order with
  | nil => intro h hh; simp [findPhraseGo] at hh
  | cons i rest ih =>
    intro h hh
    cases hp : pageAt pages i with
    | none => exact ih h (by simpa [findPhraseGo, hp] using hh)
    | some pc =>
      by_cases hf : fuzzyMatch pc.text phrase = true
      · by_cases hr : 0 < (findTextRects phrase pc).length
        · simp [findPhraseGo, hp, hf, hr] at hh
          subst hh
          exact ⟨by simpa [← List.length_pos] using hr, pc, hp⟩
        · simp [findPhraseGo, hp, hf, hr] at hh
          subst hh
          exact ⟨by simp, pc, hp⟩
      · exact ih h (by simpa [findPhraseGo, hp, hf] using hh)

theorem findPhraseGo_first (phrase id : List Char)
    (pages : List (Option PageTextContent)) :
    ∀ (order : List Nat) (i : Nat) (pc : PageTextContent),
      order.find? (pageQualifies phrase pages) = some i →
      pageAt pages i = some pc →
      findPhraseGo phrase id pages order =
        (if 0 < (findTextRects phrase pc).length then
          (some ⟨id, phrase, i, findTextRects phrase pc, yellow⟩, false)
        else (some ⟨id, phrase, i, [⟨50, 100, 500, 30⟩], yellow⟩, true)) := by
  intro order
  induction order with
  | nil => intro i pc hfind; simp at hfind
  | cons j rest ih =>
    intro i pc hfind hp
    by_cases hq : pageQualifies phrase pages j = true
    · rw [List.find?_cons_of_pos _ hq] at hfind
      have hij : j = i := by simpa using hfind
      subst hij
      have hf : fuzzyMatch pc.text phrase = true := by
        simpa [pageQualifies, hp] using hq
      by_cases hr : 0 < (findTextRects phrase pc).length
      · simp [findPhraseGo, hp, hf, hr]
      · simp [findPhraseGo, hp, hf, hr]
    · rw [List.find?_cons_of_neg _ hq] at hfind
      have hrest := ih i pc hfind hp
      cases hpj : pageAt pages j with
      | none => simpa [findPhraseGo, hpj] using hrest
      | some pcj =>
        have hfj : ¬(fuzzyMatch pcj.text phrase = true) := by
          simpa [pageQualifies, hpj] using hq
        simpa [findPhraseGo, hpj, hfj] using hrest

/-- Claim C5: for inputs that fail the substring check, a needle with zero
key terms never matches; otherwise `fuzzyMatch` returns true exactly when
the matched-term fraction is at least 0.6 or at least two needle key terms
matched. -/
theorem claim5_keyterm_threshold :
    ∀ haystack needle : List Char,
      containsSub (normalize haystack) (normalize needle) = false →
      ((needleTermsOf needle).length = 0 → fuzzyMatch haystack needle = false) ∧
      ((needleTermsOf needle).length ≠ 0 →
        (fuzzyMatch haystack needle = true ↔
          10 * (matchedTermsOf haystack needle).length ≥
              6 * (needleTermsOf needle).length ∨
            2 ≤ (matchedTermsOf haystack needle).length)) := by
  intro haystack needle hc
  constructor
  · intro h0
    unfold fuzzyMatch
    simp [hc, h0]
  · intro hn
    unfold fuzzyMatch
    simp [hc, hn]

/-- Witness for C5: a needle with five key terms of which exactly two match
(fraction 0.4 < 0.6) still matches via the absolute two-term rule. -/
theorem claim5_keyterm_threshold_witness :
    containsSub (normalize "alpha bravo zzz".data)
        (normalize "alpha bravo charlie delta echoo".data) = false ∧
      (needleTermsOf "alpha bravo charlie delta echoo".data).length = 5 ∧
      (matchedTermsOf "alpha bravo zzz".data
          "alpha bravo charlie delta echoo".data).length = 2 ∧
      fuzzyMatch "alpha bravo zzz".data "alpha bravo charlie delta echoo".data
        = true := by
  refine ⟨by decide, by decide, by decide, ?_⟩
  exact ((claim5_keyterm_threshold _ _ (by decide)).2 (by decide)).mpr
    (Or.inr (by decide))

/-- Claim C6: `findPhrase` visits the hinted page first and then the
remaining pages in ascending order (ascending order when no hint is given),
and reports the first visited page whose text fuzzy-matches; concretely,
when both pages of a two-page document match and the hint names page 1, the
reported page index is 1, not 0. -/
theorem claim6_hint_biased_first_match :
    (∀ (phrase id : List Char) (pages : List (Option PageTextContent))
        (hint : Option Nat),
      (findPhrase phrase id pages hint).map Highlight.pageIndex =
        (searchOrder pages hint).find? (pageQualifies phrase pages)) ∧
    searchOrder [pageBare, pageBare] (some 1) = [1, 0] ∧
    pageQualifies "revenue 12.8".data [pageBare, pageBare] 0 = true ∧
    pageQualifies "revenue 12.8".data [pageBare, pageBare] 1 = true ∧
    (findPhrase "revenue 12.8".data "r1".data [pageBare, pageBare]
        (some 1)).map Highlight.pageIndex = some 1 := by
  refine ⟨?_, by decide, by decide, by decide, by decide⟩
  intro phrase id pages hint
  exact findPhraseGo_pageIndex phrase id pages (searchOrder pages hint)

/-- Claim C9: when the first qualifying page's span resolution yields no
rectangles, `findPhrase` still answers for that page with exactly the
fixed placeholder rectangle, and the fallback diagnostic fires (it stays
silent on the precise path, so the two outcomes are distinguishable). -/
theorem claim9_partial_resolution_fallback :
    ∀ (phrase id : List Char) (pages : List (Option PageTextContent))
      (hint : Option Nat) (i : Nat) (pc : PageTextContent),
      (searchOrder pages hint).find? (pageQualifies phrase pages) = some i →
      pageAt pages i = some pc →
      (findTextRects phrase pc = [] →
        findPhraseWithLog phrase id pages hint =
          (some ⟨id, phrase, i, [⟨50, 100, 500, 30⟩], yellow⟩, true)) ∧
      (findTextRects phrase pc ≠ [] →
        findPhraseWithLog phrase id pages hint =
          (some ⟨id, phrase, i, findTextRects phrase pc, yellow⟩, false)) := by
  intro phrase id pages hint i pc hfind hp
  have hgo := findPhraseGo_first phrase id pages (searchOrder pages hint) i pc
    hfind hp
  constructor
  · intro hr
    rw [findPhraseWithLog, hgo]
    simp [hr]
  · intro hr
    rw [findPhraseWithLog, hgo]
    simp [List.length_pos, hr]

/-- Witness for C9: a page whose text matches `revenue 12.8` but whose
fragment list is empty resolves to the placeholder with the diagnostic. -/
theorem claim9_partial_resolution_fallback_witness :
    (searchOrder [pageBare] none).find?
        (pageQualifies "revenue 12.8".data [pageBare]) = some 0 ∧
      findTextRects "revenue 12.8".data ⟨"revenue 12.8 billion".data, []⟩ = [] ∧
      findPhraseWithLog "revenue 12.8".data "r1".data [pageBare] none =
        (some ⟨"r1".data, "revenue 12.8".data, 0, [⟨50, 100, 500, 30⟩], yellow⟩,
          true) :=
  ⟨by decide, by decide,
    (claim9_partial_resolution_fallback "revenue 12.8".data "r1".data [pageBare]
        none 0 ⟨"revenue 12.8 billion".data, []⟩ (by decide) (by decide)).1
      (by decide)⟩

/-- Claim C10: a non-null `findPhrase` result always carries a non-empty
rectangle list and the index of a page present in the input list; the
function is total, so the only other outcome is the null signal. -/
theorem claim10_result_wellformed :
    ∀ (phrase id : List Char) (pages : List (Option PageTextContent))
      (hint : Option Nat) (h : Highlight),
      findPhrase phrase id pages hint = some h →
      h.rects ≠ [] ∧ ∃ pc, pageAt pages h.pageIndex = some pc := by
  intro phrase id pages hint h hh
  exact findPhraseGo_sound phrase id pages (searchOrder pages hint) h hh

/-- Witness for C10 at a concrete one-page document. -/
theorem claim10_result_wellformed_witness :
    findPhrase "revenue 12.8".data "r1".data [pageBare] none =
        some ⟨"r1".data, "revenue 12.8".data, 0, [⟨50, 100, 500, 30⟩], yellow⟩ ∧
      (Highlight.mk "r1".data "revenue 12.8".data 0 [⟨50, 100, 500, 30⟩]
          yellow).rects ≠ [] ∧
      ∃ pc, pageAt [pageBare]
          (Highlight.mk "r1".data "revenue 12.8".data 0 [⟨50, 100, 500, 30⟩]
            yellow).pageIndex = some pc :=
  ⟨by decide,
    claim10_result_wellformed "revenue 12.8".data "r1".data [pageBare] none
      ⟨"r1".data, "revenue 12.8".data, 0, [⟨50, 100, 500, 30⟩], yellow⟩
      (by decide)⟩

/-! ## Idempotence of `normalize` on the plain alphabet

`normalize` is not idempotent in general (see the counterexample below);
the lemmas of this section establish that it is idempotent on strings of
ASCII letters, digits and spaces, by showing that on such inputs the output
of `normalize` is a fixed point of every stage of the pipeline (the `usd`
stage may add one trailing space, which the final trim removes again). -/

theorem toNat_ofNat_small (n : Nat) (h : n < 55296) : (Char.ofNat n).toNat = n := by
  unfold Char.ofNat
  split
  · rfl
  · exact absurd (Or.inl h) (by assumption)

theorem char_eq_space (c : Char) (h : c.toNat = 32) : c = ' ' := by
  rw [← Char.ofNat_toNat c, h]

theorem jsToLower_lowC (c : Char) (h : plainC c = true) : lowC (jsToLower c) = true := by
  simp only [plainC, Bool.or_eq_true, Bool.and_eq_true, decide_eq_true_eq] at h
  unfold jsToLower
  by_cases hc : 65 ≤ c.toNat ∧ c.toNat ≤ 90
  · rw [if_pos hc]
    have h32 : (Char.ofNat (c.toNat + 32)).toNat = c.toNat + 32 :=
      toNat_ofNat_small _ (by omega)
    simp only [lowC, h32, Bool.or_eq_true, Bool.and_eq_true, decide_eq_true_eq]
    omega
  · rw [if_neg hc]
    simp only [lowC, Bool.or_eq_true, Bool.and_eq_true, decide_eq_true_eq]
    omega

theorem jsToLower_id (c : Char) (h : lowC c = true) : jsToLower c = c := by
  simp only [lowC, Bool.or_eq_true, Bool.and_eq_true, decide_eq_true_eq] at h
  unfold jsToLower
  rw [if_neg]
  omega

theorem lowC_space_of_ws (c : Char) (h1 : lowC c = true) (h2 : wsC c = true) :
    c = ' ' := by
  simp only [lowC, Bool.or_eq_true, Bool.and_eq_true, decide_eq_true_eq] at h1
  simp only [wsC, Bool.or_eq_true, decide_eq_true_eq] at h2
  exact char_eq_space c (by omega)

theorem lowC_keep (c : Char) (h : lowC c = true) : keepC c = true := by
  have hw : isWordC c = true ∨ wsC c = true := by
    simp only [lowC, Bool.or_eq_true, Bool.and_eq_true, decide_eq_true_eq] at h
    simp only [isWordC, wsC, Bool.or_eq_true, Bool.and_eq_true, decide_eq_true_eq]
    omega
  rcases hw with hw | hw <;> simp [keepC, hw]

theorem lowC_ne_dollar (c : Char) (h : lowC c = true) : ¬(c = '$') := by
  intro he
  subst he
  exact absurd h (by decide)

theorem lowC_ne_comma (c : Char) (h : lowC c = true) : ¬(c = ',') := by
  intro he
  subst he
  exact absurd h (by decide)

theorem map_jsToLower_id : ∀ l : List Char, (∀ c ∈ l, lowC c = true) →
    l.map jsToLower = l := by
  intro l h
  induction l with
  | nil => rfl
  | cons c rest ih =>
    simp only [List.map_cons, List.cons.injEq]
    exact ⟨jsToLower_id c (h c (by simp)), ih fun d hd => h d (by simp [hd])⟩

theorem collapseWs_lowC : ∀ l : List Char, (∀ c ∈ l, lowC c = true) →
    ∀ d ∈ collapseWs l, lowC d = true := by
  intro l
  induction l with
  | nil => intro _ d hd; simp [collapseWs] at hd
  | cons c rest ih =>
    intro h d hd
    have hc : lowC c = true := h c (by simp)
    have hrest : ∀ e ∈ rest, lowC e = true := fun e he => h e (by simp [he])
    cases rest with
    | nil =>
      simp [collapseWs] at hd
      subst hd
      split
      · decide
      · exact hc
    | cons e tail =>
      simp only [collapseWs] at hd
      by_cases hcw : (wsC c && wsC e) = true
      · rw [if_pos hcw] at hd
        exact ih hrest d hd
      · rw [if_neg hcw] at hd
        rcases List.mem_cons.mp hd with hh | hh
        · subst hh
          split
          · decide
          · exact hc
        · exact ih hrest d hh

theorem noWs2_tail (c : Char) (m : List Char) (h : noWs2 (c :: m) = true) :
    noWs2 m = true := by
  cases m with
  | nil => rfl
  | cons d t =>
    simp only [noWs2, Bool.and_eq_true] at h
    exact h.2

theorem noWs2_cons_of (c : Char) (m : List Char) (hm : noWs2 m = true)
    (hh : ∀ y, m.head? = some y → (wsC c && wsC y) = false) :
    noWs2 (c :: m) = true := by
  cases m with
  | nil => rfl
  | cons d t => simp [noWs2, hm, hh d rfl]

theorem collapseWs_head : ∀ l : List Char,
    (collapseWs l).head? = l.head?.map fun c => if wsC c then ' ' else c := by
  intro l
  induction l with
  | nil => rfl
  | cons c rest ih =>
    cases rest with
    | nil => simp [collapseWs]
    | cons d t =>
      rw [collapseWs.eq_2]
      by_cases hcd : (wsC c && wsC d) = true
      · rw [if_pos hcd, ih]
        simp only [Bool.and_eq_true] at hcd
        simp [hcd.1, hcd.2]
      · rw [if_neg hcd]
        simp

theorem collapseWs_noWs2 : ∀ l : List Char, noWs2 (collapseWs l) = true := by
  intro l
  induction l with
  | nil => rfl
  | cons c rest ih =>
    cases rest with
    | nil =>
      simp only [collapseWs, Bool.and_false, Bool.false_eq_true, if_false]
      rfl
    | cons d t =>
      rw [collapseWs.eq_2]
      by_cases hcd : (wsC c && wsC d) = true
      · rw [if_pos hcd]
        exact ih
      · rw [if_neg hcd]
        apply noWs2_cons_of _ _ ih
        intro y hy
        rw [collapseWs_head] at hy
        simp only [List.head?_cons, Option.map_some'] at hy
        by_cases hc : wsC c = true
        · have hd2 : wsC d = false := by
            cases hw : wsC d
            · rfl
            · exact absurd (by simp [hc, hw]) hcd
          rw [if_neg (by simp [hd2])] at hy
          injection hy with hy
          subst hy
          simp [hd2]
        · rw [if_neg hc]
          simp only [Bool.not_eq_true] at hc
          simp [hc]

theorem collapseWs_id : ∀ l : List Char, noWs2 l = true →
    (∀ c ∈ l, wsC c = true → c = ' ') → collapseWs l = l := by
  intro l
  induction l with
  | nil => intro _ _; rfl
  | cons c rest ih =>
    intro hnd hsp
    cases rest with
    | nil =>
      simp only [collapseWs, Bool.and_false, Bool.false_eq_true, if_false]
      congr 1
      split
      · exact (hsp c (by simp) (by assumption)).symm
      · rfl
    | cons d t =>
      simp only [noWs2, Bool.and_eq_true, Bool.not_eq_true'] at hnd
      obtain ⟨h1, h2⟩ := hnd
      rw [collapseWs.eq_2]
      rw [if_neg (by simp [h1])]
      congr 1
      · split
        · exact (hsp c (by simp) (by assumption)).symm
        · rfl
      · exact ih h2 fun e he hw => hsp e (by simp [he]) hw

theorem noWs2_cons_nonws (a : Char) (m : List Char) (ha : wsC a = false)
    (hm : noWs2 m = true) : noWs2 (a :: m) = true := by
  apply noWs2_cons_of a m hm
  intro y hy
  simp [ha]

theorem usdAux_false_head : ∀ m : List Char, (usdAux false m).head? = m.head? := by
  intro m
  rcases m with _ | ⟨c, rest⟩
  · rfl
  · by_cases husd : ∃ r, c = 'u' ∧ rest = 's' :: 'd' :: r
    · obtain ⟨r, rfl, rfl⟩ := husd
      rw [usdAux.eq_1]
      rfl
    · rw [usdAux.eq_2 false c rest fun r h1 h2 => husd ⟨r, h1, h2⟩,
        if_neg (by simp)]
      rfl

theorem usdAux_false_cons_cons (m : List Char) (a b : Char) (t : List Char)
    (h : usdAux false m = a :: b :: t) : ∃ m2, m = a :: b :: m2 := by
  rcases m with _ | ⟨c, rest⟩
  · rw [usdAux.eq_3] at h
    exact absurd h (by simp)
  · by_cases husd : ∃ r, c = 'u' ∧ rest = 's' :: 'd' :: r
    · obtain ⟨r, rfl, rfl⟩ := husd
      rw [usdAux.eq_1] at h
      injection h with h1 h
      injection h with h2 h
      exact ⟨'d' :: r, by rw [← h1, ← h2]⟩
    · rw [usdAux.eq_2 false c rest fun r h1 h2 => husd ⟨r, h1, h2⟩,
        if_neg (by simp)] at h
      injection h with h1 h
      have hh := usdAux_false_head rest
      rw [h] at hh
      rcases rest with _ | ⟨d, rest2⟩
      · simp at hh
      · simp only [List.head?_cons, Option.some.injEq] at hh
        exact ⟨rest2, by rw [h1, hh]⟩

theorem usdAux_true_head_nonws : ∀ (m : List Char) (y : Char),
    (usdAux true m).head? = some y → wsC y = false := by
  intro m
  induction m with
  | nil => intro y hy; rw [usdAux.eq_3] at hy; simp at hy
  | cons c rest ih =>
    intro y hy
    by_cases husd : ∃ r, c = 'u' ∧ rest = 's' :: 'd' :: r
    · obtain ⟨r, rfl, rfl⟩ := husd
      rw [usdAux.eq_1] at hy
      simp only [List.head?_cons, Option.some.injEq] at hy
      subst hy
      decide
    · rw [usdAux.eq_2 true c rest fun r h1 h2 => husd ⟨r, h1, h2⟩] at hy
      by_cases hcw : wsC c = true
      · rw [if_pos ⟨rfl, hcw⟩] at hy
        exact ih y hy
      · rw [if_neg (by simp [hcw])] at hy
        simp only [List.head?_cons, Option.some.injEq] at hy
        subst hy
        exact Bool.eq_false_iff.mpr hcw

theorem usdAux_true_eq_false (m : List Char)
    (hh : ∀ y, m.head? = some y → wsC y = false) :
    usdAux true m = usdAux false m := by
  rcases m with _ | ⟨c, rest⟩
  · rfl
  · by_cases husd : ∃ r, c = 'u' ∧ rest = 's' :: 'd' :: r
    · obtain ⟨r, rfl, rfl⟩ := husd
      rw [usdAux.eq_1, usdAux.eq_1]
    · have hcond : ∀ r, c = 'u' → rest = 's' :: 'd' :: r → False :=
        fun r h1 h2 => husd ⟨r, h1, h2⟩
      rw [usdAux.eq_2 true c rest hcond, usdAux.eq_2 false c rest hcond]
      have hc : wsC c = false := hh c (by simp)
      rw [if_neg (by simp [hc]), if_neg (by simp)]

theorem usdAux_lowC : ∀ (skip : Bool) (m : List Char),
    (∀ c ∈ m, lowC c = true) → ∀ d ∈ usdAux skip m, lowC d = true := by
  intro skip m
  induction skip, m using usdAux.induct with
  | case1 x rest ih =>
    intro h d hd
    rw [usdAux.eq_1] at hd
    simp only [List.mem_cons] at hd
    rcases hd with rfl | rfl | rfl | rfl | hd
    · decide
    · decide
    · decide
    · decide
    · exact ih (fun e he => h e (by simp [he])) d hd
  | case2 skip c rest hcond hskip ih =>
    intro h d hd
    rw [usdAux.eq_2 skip c rest hcond, if_pos hskip] at hd
    exact ih (fun e he => h e (by simp [he])) d hd
  | case3 skip c rest hcond hskip ih =>
    intro h d hd
    rw [usdAux.eq_2 skip c rest hcond, if_neg hskip] at hd
    rcases List.mem_cons.mp hd with rfl | hd
    · exact h d (by simp)
    · exact ih (fun e he => h e (by simp [he])) d hd
  | case4 x => intro _ d hd; rw [usdAux.eq_3] at hd; simp at hd

theorem usdAux_noWs2 : ∀ (skip : Bool) (m : List Char),
    noWs2 m = true → noWs2 (usdAux skip m) = true := by
  intro skip m
  induction skip, m using usdAux.induct with
  | case1 x rest ih =>
    intro h
    rw [usdAux.eq_1]
    have hr := ih (noWs2_tail _ _ (noWs2_tail _ _ (noWs2_tail _ _ h)))
    have h4 : noWs2 (' ' :: usdAux true rest) = true := by
      apply noWs2_cons_of _ _ hr
      intro y hy
      simp [usdAux_true_head_nonws rest y hy]
    exact noWs2_cons_nonws _ _ (by decide) (noWs2_cons_nonws _ _ (by decide)
      (noWs2_cons_nonws _ _ (by decide) h4))
  | case2 skip c rest hcond hskip ih =>
    intro h
    rw [usdAux.eq_2 skip c rest hcond, if_pos hskip]
    exact ih (noWs2_tail _ _ h)
  | case3 skip c rest hcond hskip ih =>
    intro h
    rw [usdAux.eq_2 skip c rest hcond, if_neg hskip]
    have hr := ih (noWs2_tail _ _ h)
    apply noWs2_cons_of _ _ hr
    intro y hy
    rw [usdAux_false_head rest] at hy
    rcases rest with _ | ⟨d, rest2⟩
    · simp at hy
    · simp only [List.head?_cons, Option.some.injEq] at hy
      subst hy
      simp only [noWs2, Bool.and_eq_true, Bool.not_eq_true'] at h
      exact h.1
  | case4 x => intro _; rw [usdAux.eq_3]; rfl

theorem usdOk_tail (c : Char) (m : List Char) (h : usdOk (c :: m) = true) :
    usdOk m = true := by
  by_cases hu : ∃ r, c = 'u' ∧ m = 's' :: 'd' :: r
  · obtain ⟨r, rfl, rfl⟩ := hu
    rw [usdOk.eq_3 's' _ (by intro r1 h1 h2; exact absurd h1 (by decide)),
      usdOk.eq_3 'd' _ (by intro r1 h1 h2; exact absurd h1 (by decide))]
    rcases r with _ | ⟨d, tail⟩
    · rfl
    · rw [usdOk.eq_2] at h
      simp only [Bool.and_eq_true] at h
      exact h.2
  · rw [usdOk.eq_3 c m fun r h1 h2 => hu ⟨r, h1, h2⟩] at h
    exact h

theorem usdAux_usdOk : ∀ (skip : Bool) (m : List Char),
    usdOk (usdAux skip m) = true := by
  intro skip m
  induction skip, m using usdAux.induct with
  | case1 x rest ih =>
    rw [usdAux.eq_1, usdOk.eq_2,
      usdOk.eq_3 ' ' _ (by intro r1 h1 h2; exact absurd h1 (by decide)), ih]
    decide
  | case2 skip c rest hcond hskip ih =>
    rw [usdAux.eq_2 skip c rest hcond, if_pos hskip]
    exact ih
  | case3 skip c rest hcond hskip ih =>
    rw [usdAux.eq_2 skip c rest hcond, if_neg hskip]
    by_cases hu : ∃ X2, c = 'u' ∧ usdAux false rest = 's' :: 'd' :: X2
    · obtain ⟨X2, rfl, hX⟩ := hu
      obtain ⟨m2, hm⟩ := usdAux_false_cons_cons rest 's' 'd' X2 hX
      exact (hcond m2 rfl hm).elim
    · rw [usdOk.eq_3 c _ fun r h1 h2 => hu ⟨r, h1, h2⟩]
      exact ih
  | case4 x => rw [usdAux.eq_3]; rfl

theorem usdAux_fix : ∀ (n : Nat) (m : List Char), m.length ≤ n →
    usdOk m = true → noWs2 m = true →
    usdAux false m = m ∨ usdAux false m = m ++ [' '] := by
  intro n
  induction n with
  | zero =>
    intro m hl _ _
    rcases m with _ | ⟨c, rest⟩
    · exact Or.inl rfl
    · simp at hl
  | succ n ihn =>
    intro m hl hok hnd
    rcases m with _ | ⟨c, rest⟩
    · exact Or.inl rfl
    · by_cases husd : ∃ r, c = 'u' ∧ rest = 's' :: 'd' :: r
      · obtain ⟨r, rfl, rfl⟩ := husd
        rw [usdAux.eq_1]
        rcases r with _ | ⟨d, r3⟩
        · right
          rw [usdAux.eq_3]
          rfl
        · rw [usdOk.eq_2] at hok
          simp only [Bool.and_eq_true, decide_eq_true_eq] at hok
          obtain ⟨hd, hok2⟩ := hok
          subst hd
          rw [usdAux.eq_2 true ' ' r3
              (by intro r1 h1 h2; exact absurd h1 (by decide)),
            if_pos ⟨rfl, by decide⟩]
          have hr3h : ∀ y, r3.head? = some y → wsC y = false := by
            intro y hy
            rcases r3 with _ | ⟨e, r4⟩
            · simp at hy
            · simp only [List.head?_cons, Option.some.injEq] at hy
              subst hy
              have hth := noWs2_tail _ _ (noWs2_tail _ _ (noWs2_tail _ _ hnd))
              simp only [noWs2, Bool.and_eq_true, Bool.not_eq_true'] at hth
              have h1 := hth.1
              rw [show wsC ' ' = true from by decide] at h1
              simpa using h1
          rw [usdAux_true_eq_false r3 hr3h]
          have hlen : r3.length ≤ n := by
            simp only [List.length_cons] at hl
            omega
          have hok3 : usdOk r3 = true := usdOk_tail _ _ hok2
          have hnd3 : noWs2 r3 = true :=
            noWs2_tail _ _ (noWs2_tail _ _ (noWs2_tail _ _ (noWs2_tail _ _ hnd)))
          rcases ihn r3 hlen hok3 hnd3 with hfix | hfix
          · left
            rw [hfix]
          · right
            rw [hfix]
            rfl
      · rw [usdAux.eq_2 false c rest (fun r h1 h2 => husd ⟨r, h1, h2⟩),
          if_neg (by simp)]
        have hlen : rest.length ≤ n := by
          simp only [List.length_cons] at hl
          omega
        rcases ihn rest hlen (usdOk_tail _ _ hok) (noWs2_tail _ _ hnd) with
          hfix | hfix
        · left
          rw [hfix]
        · right
          rw [hfix]
          simp

theorem dropWhile_head_nonws : ∀ (l : List Char) (y : Char),
    (l.dropWhile wsC).head? = some y → wsC y = false := by
  intro l
  induction l with
  | nil => intro y hy; simp at hy
  | cons c rest ih =>
    intro y hy
    rw [List.dropWhile_cons] at hy
    by_cases hc : wsC c = true
    · rw [if_pos hc] at hy
      exact ih y hy
    · rw [if_neg hc] at hy
      simp only [List.head?_cons, Option.some.injEq] at hy
      subst hy
      exact Bool.eq_false_iff.mpr hc

theorem dropWhile_noWs2 : ∀ l : List Char, noWs2 l = true →
    noWs2 (l.dropWhile wsC) = true := by
  intro l
  induction l with
  | nil => intro _; rfl
  | cons c rest ih =>
    intro h
    rw [List.dropWhile_cons]
    by_cases hc : wsC c = true
    · rw [if_pos hc]
      exact ih (noWs2_tail _ _ h)
    · rw [if_neg hc]
      exact h

theorem dropWhile_usdOk : ∀ l : List Char, usdOk l = true →
    usdOk (l.dropWhile wsC) = true := by
  intro l
  induction l with
  | nil => intro _; rfl
  | cons c rest ih =>
    intro h
    rw [List.dropWhile_cons]
    by_cases hc : wsC c = true
    · rw [if_pos hc]
      exact ih (usdOk_tail _ _ h)
    · rw [if_neg hc]
      exact h

theorem dropWhile_lowC : ∀ l : List Char, (∀ c ∈ l, lowC c = true) →
    ∀ d ∈ l.dropWhile wsC, lowC d = true := by
  intro l h d hd
  exact h d ((List.dropWhile_sublist wsC).mem hd)

theorem dropTrail_structure : ∀ (l : List Char) (a : Char) (T : List Char),
    dropTrailWs l = a :: T → ∃ l2, l = a :: l2 ∧ T = dropTrailWs l2 := by
  intro l a T h
  rcases l with _ | ⟨c, rest⟩
  · simp [dropTrailWs] at h
  · simp only [dropTrailWs] at h
    by_cases hr : dropTrailWs rest = []
    · rw [if_pos hr] at h
      by_cases hw : wsC c = true
      · rw [if_pos hw] at h
        exact absurd h (by simp)
      · rw [if_neg hw] at h
        injection h with h1 h2
        exact ⟨rest, by rw [h1], by rw [← h2, hr]⟩
    · rw [if_neg hr] at h
      injection h with h1 h2
      exact ⟨rest, by rw [h1], by rw [← h2]⟩

theorem dropTrailWs_idem : ∀ l : List Char,
    dropTrailWs (dropTrailWs l) = dropTrailWs l := by
  intro l
  induction l with
  | nil => rfl
  | cons c rest ih =>
    simp only [dropTrailWs]
    by_cases hr : dropTrailWs rest = []
    · rw [if_pos hr]
      by_cases hw : wsC c = true
      · rw [if_pos hw]
        rfl
      · rw [if_neg hw]
        simp [dropTrailWs, hw]
    · rw [if_neg hr]
      simp only [dropTrailWs]
      rw [ih, if_neg hr]

theorem dropTrailWs_append_space : ∀ l : List Char,
    dropTrailWs (l ++ [' ']) = dropTrailWs l := by
  intro l
  induction l with
  | nil => rfl
  | cons c rest ih =>
    simp only [List.cons_append, dropTrailWs, List.append_eq]
    rw [ih]

theorem dropTrailWs_noWs2 : ∀ l : List Char, noWs2 l = true →
    noWs2 (dropTrailWs l) = true := by
  intro l
  induction l with
  | nil => intro _; rfl
  | cons c rest ih =>
    intro h
    simp only [dropTrailWs]
    by_cases hr : dropTrailWs rest = []
    · rw [if_pos hr]
      split
      · rfl
      · rfl
    · rw [if_neg hr]
      have hnd := ih (noWs2_tail _ _ h)
      apply noWs2_cons_of _ _ hnd
      intro y hy
      rcases hdr : dropTrailWs rest with _ | ⟨a, T⟩
      · exact absurd hdr hr
      · rw [hdr] at hy
        simp only [List.head?_cons, Option.some.injEq] at hy
        subst hy
        obtain ⟨l2, hl2, _⟩ := dropTrail_structure rest a T hdr
        rw [hl2] at h
        simp only [noWs2, Bool.and_eq_true, Bool.not_eq_true'] at h
        exact h.1

theorem dropTrailWs_lowC : ∀ l : List Char, (∀ c ∈ l, lowC c = true) →
    ∀ d ∈ dropTrailWs l, lowC d = true := by
  intro l
  induction l with
  | nil => intro _ d hd; simp [dropTrailWs] at hd
  | cons c rest ih =>
    intro h d hd
    simp only [dropTrailWs] at hd
    by_cases hr : dropTrailWs rest = []
    · rw [if_pos hr] at hd
      split at hd
      · simp at hd
      · simp only [List.mem_singleton] at hd
        subst hd
        exact h d (by simp)
    · rw [if_neg hr] at hd
      rcases List.mem_cons.mp hd with rfl | hd
      · exact h d (by simp)
      · exact ih (fun e he => h e (by simp [he])) d hd

theorem dropTrailWs_head : ∀ l : List Char,
    dropTrailWs l = [] ∨ (dropTrailWs l).head? = l.head? := by
  intro l
  rcases hE : dropTrailWs l with _ | ⟨a, T⟩
  · exact Or.inl rfl
  · right
    obtain ⟨l2, hl2, _⟩ := dropTrail_structure l a T hE
    rw [hl2]
    simp

theorem dropTrailWs_usdOk : ∀ l : List Char, usdOk l = true →
    usdOk (dropTrailWs l) = true := by
  intro l
  induction l with
  | nil => intro _; rfl
  | cons c rest ih =>
    intro h
    simp only [dropTrailWs]
    by_cases hr : dropTrailWs rest = []
    · rw [if_pos hr]
      split
      · rfl
      · rw [usdOk.eq_3 c [] (by intro r h1 h2; simp at h2)]
        rfl
    · rw [if_neg hr]
      have hok := ih (usdOk_tail _ _ h)
      by_cases hu : ∃ r, c = 'u' ∧ dropTrailWs rest = 's' :: 'd' :: r
      · obtain ⟨r, rfl, hdr⟩ := hu
        obtain ⟨l2, hl2, hT⟩ := dropTrail_structure rest 's' ('d' :: r) hdr
        obtain ⟨l3, hl3, hT2⟩ := dropTrail_structure l2 'd' r hT.symm
        subst hl2
        subst hl3
        rw [hdr] at hok ⊢
        rcases hE : r with _ | ⟨e, E⟩
        · rw [usdOk.eq_1]
          rfl
        · rw [usdOk.eq_2]
          rcases l3 with _ | ⟨f, F⟩
          · rw [hE] at hT2
            simp [dropTrailWs] at hT2
          · obtain ⟨l4, hl4, _⟩ :=
              dropTrail_structure (f :: F) e E (by rw [← hT2, hE])
            injection hl4 with hfe hFl4
            rw [usdOk.eq_2] at h
            simp only [Bool.and_eq_true, decide_eq_true_eq] at h
            obtain ⟨hf, _⟩ := h
            rw [usdOk.eq_3 's' _ (by intro r1 h1 h2; exact absurd h1 (by decide)),
              usdOk.eq_3 'd' _ (by intro r1 h1 h2; exact absurd h1 (by decide)),
              hE] at hok
            simp only [Bool.and_eq_true, decide_eq_true_eq]
            exact ⟨by rw [← hfe, hf], hok⟩
      · rw [usdOk.eq_3 c _ fun r h1 h2 => hu ⟨r, h1, h2⟩]
        exact hok

theorem dollarStep_id : ∀ l : List Char, (∀ c ∈ l, ¬(c = '$')) →
    dollarStep l = l := by
  intro l
  induction l with
  | nil => intro _; rfl
  | cons c rest ih =>
    intro h
    simp only [dollarStep, List.flatMap_cons]
    rw [if_neg (h c (by simp))]
    simp only [List.singleton_append, List.cons.injEq]
    exact ⟨trivial, ih fun e he => h e (by simp [he])⟩

theorem dropThousands_id : ∀ l : List Char, (∀ c ∈ l, ¬(c = ',')) →
    dropThousands l = l := by
  intro l
  induction l with
  | nil => intro _; rfl
  | cons c rest ih =>
    intro h
    simp only [dropThousands]
    rw [if_neg (by simp [h c (by simp)])]
    rw [ih fun e he => h e (by simp [he])]

theorem commaStep_id (l : List Char) (h : ∀ c ∈ l, ¬(c = ',')) :
    commaStep l = l := by
  rw [commaStep_eq_dropThousands]
  exact dropThousands_id l h

theorem normalize_fixed_point (y : List Char)
    (hlow : ∀ c ∈ y, lowC c = true) (hnd : noWs2 y = true)
    (hok : usdOk y = true) (hdw : y.dropWhile wsC = y)
    (hdt : dropTrailWs y = y) : normalize y = y := by
  unfold normalize trimWs
  rw [map_jsToLower_id y hlow]
  rw [collapseWs_id y hnd fun c hc hw => lowC_space_of_ws c (hlow c hc) hw]
  rcases usdAux_fix y.length y le_rfl hok hnd with hfix | hfix
  · rw [hfix]
    rw [dollarStep_id y fun c hc => lowC_ne_dollar c (hlow c hc)]
    rw [commaStep_id y fun c hc => lowC_ne_comma c (hlow c hc)]
    rw [List.filter_eq_self.mpr fun c hc => lowC_keep c (hlow c hc)]
    rw [hdw, hdt]
  · rw [hfix]
    have hlow2 : ∀ c ∈ y ++ [' '], lowC c = true := by
      intro c hc
      rcases List.mem_append.mp hc with hc | hc
      · exact hlow c hc
      · simp only [List.mem_singleton] at hc
        subst hc
        decide
    rw [dollarStep_id _ fun c hc => lowC_ne_dollar c (hlow2 c hc)]
    rw [commaStep_id _ fun c hc => lowC_ne_comma c (hlow2 c hc)]
    rw [List.filter_eq_self.mpr fun c hc => lowC_keep c (hlow2 c hc)]
    rcases y with _ | ⟨c, rest⟩
    · rfl
    · have hc : wsC c = false := by
        by_contra hcc
        simp only [Bool.not_eq_false] at hcc
        rw [List.dropWhile_cons, if_pos hcc] at hdw
        have hlen := congrArg List.length hdw
        have hle := (List.dropWhile_sublist (l := rest) wsC).length_le
        simp only [List.length_cons] at hlen
        omega
      rw [List.cons_append, List.dropWhile_cons, if_neg (by simp [hc])]
      rw [show c :: (rest ++ [' ']) = (c :: rest) ++ [' '] from by simp]
      rw [dropTrailWs_append_space, hdt]

theorem normalize_output_props (l : List Char)
    (h : ∀ c ∈ l, plainC c = true) :
    (∀ c ∈ normalize l, lowC c = true) ∧ noWs2 (normalize l) = true ∧
      usdOk (normalize l) = true ∧ (normalize l).dropWhile wsC = normalize l ∧
      dropTrailWs (normalize l) = normalize l := by
  have hlowL : ∀ c ∈ l.map jsToLower, lowC c = true := by
    intro c hc
    obtain ⟨e, he, rfl⟩ := List.mem_map.mp hc
    exact jsToLower_lowC e (h e he)
  have hlowA := collapseWs_lowC (l.map jsToLower) hlowL
  have hndA := collapseWs_noWs2 (l.map jsToLower)
  have hlowB := usdAux_lowC false (collapseWs (l.map jsToLower)) hlowA
  have hndB := usdAux_noWs2 false (collapseWs (l.map jsToLower)) hndA
  have hokB := usdAux_usdOk false (collapseWs (l.map jsToLower))
  have hnorm : normalize l =
      dropTrailWs ((usdAux false (collapseWs (l.map jsToLower))).dropWhile wsC) := by
    unfold normalize trimWs
    rw [dollarStep_id _ fun c hc => lowC_ne_dollar c (hlowB c hc)]
    rw [commaStep_id _ fun c hc => lowC_ne_comma c (hlowB c hc)]
    rw [List.filter_eq_self.mpr fun c hc => lowC_keep c (hlowB c hc)]
  rw [hnorm]
  refine ⟨fun c hc => dropTrailWs_lowC _ (dropWhile_lowC _ hlowB) c hc,
    dropTrailWs_noWs2 _ (dropWhile_noWs2 _ hndB),
    dropTrailWs_usdOk _ (dropWhile_usdOk _ hokB), ?_, dropTrailWs_idem _⟩
  rcases hE : dropTrailWs ((usdAux false (collapseWs (l.map jsToLower))).dropWhile wsC)
      with _ | ⟨a, T⟩
  · rfl
  · rcases dropTrailWs_head ((usdAux false (collapseWs (l.map jsToLower))).dropWhile wsC)
        with hh | hh
    · rw [hE] at hh
      exact absurd hh (by simp)
    · rw [hE] at hh
      have ha : wsC a = false := dropWhile_head_nonws _ a hh.symm
      rw [List.dropWhile_cons, if_neg (by simp [ha])]

/-- Claim C1, counterexample: `normalize` is not idempotent.  On `",,5"` the
single-pass comma stage leaves `",5"`, which a second pass reduces to `"5"`. -/
theorem claim1_normalize_idempotent_cex :
    ¬(normalize (normalize ",,5".data) = normalize ",,5".data) ∧
      normalize ",,5".data = ",5".data ∧
      normalize (normalize ",,5".data) = "5".data := by
  refine ⟨by decide, by decide, by decide⟩

/-- Claim C1 as amended: normalization is idempotent on every string made of
ASCII letters, digits and spaces; it is not idempotent on arbitrary strings
(counterexamples need a comma chain, a stripped character or a currency
rewrite, e.g. `",,5"`). -/
theorem claim1_normalize_idempotent_plain :
    ∀ l : List Char, (∀ c ∈ l, plainC c = true) →
      normalize (normalize l) = normalize l := by
  intro l h
  obtain ⟨h1, h2, h3, h4, h5⟩ := normalize_output_props l h
  exact normalize_fixed_point (normalize l) h1 h2 h3 h4 h5

/-- Witness for the amended C1 at a plain-alphabet string containing the
letters `usd`, uppercase characters and digits. -/
theorem claim1_normalize_idempotent_plain_witness :
    (∀ c ∈ ("USD Revenue usdx 128".data), plainC c = true) ∧
      normalize (normalize "USD Revenue usdx 128".data) =
        normalize "USD Revenue usdx 128".data :=
  ⟨by decide, claim1_normalize_idempotent_plain "USD Revenue usdx 128".data
    (by decide)⟩

end HighlightManager
